import Mathlib

/-
  Verification development for the lure-notification program
  (file src/lastname_firstInitial_challenge.py, class LureNotifier).

  Embedding conventions:
  * Python dicts are association lists (`List (String × α)`); insertion
    order is the list order and lookup (`dictGet`) returns the value of
    the first matching key.
  * Python sets of user ids are `Finset String`.
  * The recursion of `gather_subordinates` is embedded with explicit
    fuel (`gather`); `gatherSubordinates` runs it with fuel `m.length`,
    which is proved sufficient (`descWithin_shorten`, `c5_termination`).
-/

namespace LureChallenge

/-- Lookup in an association list, mirroring Python `dict.__getitem__` /
`dict.get`: the first entry whose key matches. -/
def dictGet {α : Type} : List (String × α) → String → Option α
  | [], _ => none
  | p :: d, k => if p.1 = k then some p.2 else dictGet d k

/-- Insertion into an association list, mirroring Python
`dict.__setitem__`: an existing key keeps its position and gets the new
value, a new key is appended at the end. -/
def dictInsert (k : String) (v : Finset String) :
    List (String × Finset String) → List (String × Finset String)
  | [] => [(k, v)]
  | p :: d => if p.1 = k then (k, v) :: d else p :: dictInsert k v d

/-- The keys of the manager map `USER_TO_MANAGER_DICT` (pairs are
(user, manager): "user reports to manager"). -/
def keys (m : List (String × String)) : List String := m.map Prod.fst

/-- Relation `stepRel m u v` holds when user `u` reports directly to `v`. -/
def stepRel (m : List (String × String)) (u v : String) : Prop := (u, v) ∈ m

/-- The users whose manager is `x`: the loop
`for user, manager in self.USER_TO_MANAGER_DICT.items(): if manager == user_id`
inside `gather_subordinates`. -/
def directReports (m : List (String × String)) (x : String) : List String :=
  (m.filter (fun p => p.2 == x)).map Prod.fst

/-- Fuel-indexed embedding of the recursion of `gather_subordinates`:
`subordinates = {direct reports} ∪ ⋃ gather_subordinates(direct report)`.
Fuel bounds the recursion depth. -/
def gather (m : List (String × String)) : Nat → String → Finset String
  | 0, _ => ∅
  | n + 1, x =>
      ((directReports m x).map (fun u => insert u (gather m n u))).foldr (· ∪ ·) ∅

/-- Total form of `gather_subordinates(x)`: fuel `m.length` is enough, because any
reporting chain with distinct users has length at most the number of
entries of the manager map (`descWithin_shorten`). -/
def gatherSubordinates (m : List (String × String)) (x : String) : Finset String :=
  gather m m.length x

/-- Embedding of `_build_user_reports_chain_map`: the returned dict has one entry per
key of `USER_TO_MANAGER_DICT` (the top-level loop `for user in
self.USER_TO_MANAGER_DICT` only visits keys, and the recursion only ever
descends to keys), each mapped to its subordinate set. -/
def buildChainMap (m : List (String × String)) : List (String × Finset String) :=
  (keys m).dedup.map (fun u => (u, gatherSubordinates m u))

/-- Lookup `user_hierarchy_map.get(user_id, set())` as used by
`_precompute_notifications`. -/
def chainGet (m : List (String × String)) (u : String) : Finset String :=
  (dictGet (buildChainMap m) u).getD ∅

/-- The terms appearing in some subscription list: the keys of
`term_notifications` created by `_precompute_notifications`. -/
def subscribedTerms (subs : List (String × List String)) : List String :=
  (subs.foldr (fun p acc => p.2 ++ acc) []).dedup

/-- The final value `term_notifications[t]` after the loops of
`_precompute_notifications`: for every subscription entry `(u, terms)`
with `t ∈ terms`, the user `u` and `user_hierarchy_map.get(u, set())`
are added to the set for `t`. -/
def notifySet (m : List (String × String)) (subs : List (String × List String))
    (t : String) : Finset String :=
  subs.foldr (fun p acc => if t ∈ p.2 then insert p.1 (chainGet m p.1) ∪ acc else acc) ∅

/-- Embedding of `_precompute_notifications` as a dict: one entry per subscribed
term, holding its notify-set. -/
def buildTermMap (m : List (String × String)) (subs : List (String × List String)) :
    List (String × Finset String) :=
  (subscribedTerms subs).map (fun t => (t, notifySet m subs t))

/-- Lookup `self.TERM_NOTIFICATIONS_MAP.get(term, set())` as used by `notify`. -/
def termNotifGet (m : List (String × String)) (subs : List (String × List String))
    (t : String) : Finset String :=
  (dictGet (buildTermMap m subs) t).getD ∅

/-- The class constant `LureNotifier.TERMS`. -/
def TERMS : List String :=
  ["cisco", "gmail", "login", "mail", "paying", "paypal", ".gov"]

/-- Python substring containment `needle in haystack` on character lists. -/
def containsSub : List Char → List Char → Bool
  | n, [] => n.isEmpty
  | n, c :: t => n.isPrefixOf (c :: t) || containsSub n t

/-- Python `str.lower()` restricted to the per-character case mapping. -/
def pyLower (s : String) : String := ⟨s.data.map Char.toLower⟩

/-- The comprehension `[term for term in self.TERMS if term in lower_domain]`. -/
def matchedTerms (d : String) : List String :=
  TERMS.filter (fun t => containsSub t.data (pyLower d).data)

/-- Embedding of `identify_lures`: keep, in input order, each domain whose matched
term list has at least two elements, paired with that list. -/
def identify_lures (domains : List String) : List (String × List String) :=
  domains.filterMap (fun d =>
    if 2 ≤ (matchedTerms d).length then some (d, matchedTerms d) else none)

/-- The set `users_to_notify` for one lure: the union over its matched terms of
`TERM_NOTIFICATIONS_MAP.get(term, set())`. -/
def usersToNotify (tm : List (String × Finset String)) (terms : List String) :
    Finset String :=
  terms.foldr (fun t acc => (dictGet tm t).getD ∅ ∪ acc) ∅

/-- Embedding of `notify`: builds the dict `domain_notifications` by inserting, for
each lure in order, its domain mapped to the users to notify. -/
def notifyRun (tm : List (String × Finset String))
    (lures : List (String × List String)) : List (String × Finset String) :=
  lures.foldl (fun acc p => dictInsert p.1 (usersToNotify tm p.2) acc) []

/-- The state of a `LureNotifier` instance. -/
structure LureNotifier where
  TARGET_DOMAINS : List String
  SUBSCRIPTIONS : List (String × List String)
  USER_TO_MANAGER_DICT : List (String × String)
  USER_REPORTS_CHAIN_MAP : List (String × Finset String)
  TERM_NOTIFICATIONS_MAP : List (String × Finset String)

/-- Embedding of `LureNotifier.__init__`: stores the three inputs and eagerly caches
the chain map and the term-notification map. -/
def LureNotifier.init (domains : List String) (subs : List (String × List String))
    (m : List (String × String)) : LureNotifier :=
  { TARGET_DOMAINS := domains
    SUBSCRIPTIONS := subs
    USER_TO_MANAGER_DICT := m
    USER_REPORTS_CHAIN_MAP := buildChainMap m
    TERM_NOTIFICATIONS_MAP := buildTermMap m subs }

/-- Method form of `identify_lures`: writes `self.TARGET_DOMAINS = domains`
and returns the lure list. -/
def LureNotifier.identifyLuresM (s : LureNotifier) (domains : List String) :
    LureNotifier × List (String × List String) :=
  ({ s with TARGET_DOMAINS := domains }, identify_lures domains)

/-- Method form of `notify`: reads `self.TERM_NOTIFICATIONS_MAP`, writes
nothing. -/
def LureNotifier.notifyM (s : LureNotifier) (lures : List (String × List String)) :
    LureNotifier × List (String × Finset String) :=
  (s, notifyRun s.TERM_NOTIFICATIONS_MAP lures)

/-- A query against a constructed notifier. -/
inductive Query where
  | identifyQ (domains : List String)
  | notifyQ (lures : List (String × List String))

/-- The state after one query. -/
def runQuery (s : LureNotifier) : Query → LureNotifier
  | Query.identifyQ ds => (s.identifyLuresM ds).1
  | Query.notifyQ ls => (s.notifyM ls).1

/-- The state after a sequence of queries. -/
def runQueries (s : LureNotifier) (qs : List Query) : LureNotifier :=
  qs.foldl runQuery s

/-- The manager map is acyclic: no user is their own transitive manager. -/
def Acyclic (m : List (String × String)) : Prop :=
  ∀ x : String, ¬ Relation.TransGen (stepRel m) x x

/-- Bounded-depth subordination: `descWithin m n y x` holds when `y`
is reachable from `x` by descending at most `n` manager edges. -/
def descWithin (m : List (String × String)) : Nat → String → String → Prop
  | 0, _, _ => False
  | n + 1, y, x => ∃ u, (u, x) ∈ m ∧ (y = u ∨ descWithin m n y u)

/-- A downward reporting chain starting below `x`: consecutive manager
edges `(u, x) ∈ m`. -/
def chainOK (m : List (String × String)) : String → List String → Prop
  | _, [] => True
  | x, u :: l => (u, x) ∈ m ∧ chainOK m u l

/-! ### Membership lemmas for the subordinate computation -/

theorem mem_foldr_union {α : Type} [DecidableEq α] (y : α) (l : List (Finset α)) :
    y ∈ l.foldr (· ∪ ·) ∅ ↔ ∃ s ∈ l, y ∈ s := by
  induction l with
  | nil => simp
  | cons s l ih => simp [Finset.mem_union, ih]

theorem mem_directReports (m : List (String × String)) (x u : String) :
    u ∈ directReports m x ↔ (u, x) ∈ m := by
  simp only [directReports, List.mem_map, List.mem_filter, beq_iff_eq]
  constructor
  · rintro ⟨⟨a, b⟩, ⟨hm, hb⟩, rfl⟩
    cases hb
    exact hm
  · intro h
    exact ⟨(u, x), ⟨h, rfl⟩, rfl⟩

theorem mem_gather_succ (m : List (String × String)) (n : Nat) (x y : String) :
    y ∈ gather m (n + 1) x ↔ ∃ u, (u, x) ∈ m ∧ (y = u ∨ y ∈ gather m n u) := by
  rw [gather, mem_foldr_union]
  constructor
  · rintro ⟨s, hs, hy⟩
    rw [List.mem_map] at hs
    obtain ⟨u, hu, rfl⟩ := hs
    rw [Finset.mem_insert] at hy
    exact ⟨u, (mem_directReports m x u).1 hu, hy⟩
  · rintro ⟨u, hu, hy⟩
    refine ⟨insert u (gather m n u), ?_, ?_⟩
    · rw [List.mem_map]
      exact ⟨u, (mem_directReports m x u).2 hu, rfl⟩
    · rw [Finset.mem_insert]
      exact hy

theorem mem_gather_iff (m : List (String × String)) :
    ∀ (n : Nat) (y x : String), y ∈ gather m n x ↔ descWithin m n y x := by
  intro n
  induction n with
  | zero => intro y x; simp [gather, descWithin]
  | succ n ih =>
      intro y x
      rw [mem_gather_succ, descWithin]
      constructor
      · rintro ⟨u, hu, h⟩
        exact ⟨u, hu, h.imp id fun h2 => (ih y u).1 h2⟩
      · rintro ⟨u, hu, h⟩
        exact ⟨u, hu, h.imp id fun h2 => (ih y u).2 h2⟩

theorem descWithin_mono (m : List (String × String)) :
    ∀ {n n' : Nat} {y x : String}, n ≤ n' → descWithin m n y x → descWithin m n' y x := by
  intro n
  induction n with
  | zero => intro n' y x _ h; exact absurd h id
  | succ n ih =>
      intro n' y x hle h
      obtain ⟨k, rfl⟩ : ∃ k, n' = k + 1 := by
        cases n' with
        | zero => omega
        | succ k => exact ⟨k, rfl⟩
      obtain ⟨u, hu, h⟩ := h
      exact ⟨u, hu, h.imp id fun h2 => ih (by omega) h2⟩

/-! ### Reporting-chain paths and the fuel bound -/

theorem chainOK_suffix (m : List (String × String)) :
    ∀ (s : List String) (x b : String) (r : List String),
      chainOK m x (s ++ b :: r) → chainOK m b r := by
  intro s
  induction s with
  | nil => intro x b r h; exact h.2
  | cons a s ih => intro x b r h; exact ih a b r h.2

theorem chainOK_subset_keys (m : List (String × String)) :
    ∀ (l : List String) (x : String), chainOK m x l → ∀ u ∈ l, u ∈ keys m := by
  intro l
  induction l with
  | nil => intro x _ u hu; simp at hu
  | cons a l ih =>
      intro x h u hu
      rcases List.mem_cons.1 hu with rfl | hu
      · exact List.mem_map.2 ⟨(u, x), h.1, rfl⟩
      · exact ih a h.2 u hu

theorem descWithin_iff_path (m : List (String × String)) :
    ∀ (n : Nat) (y x : String),
      descWithin m n y x ↔ ∃ l, chainOK m x (l ++ [y]) ∧ l.length + 1 ≤ n := by
  intro n
  induction n with
  | zero => intro y x; simp [descWithin]
  | succ n ih =>
      intro y x
      constructor
      · rintro ⟨u, hu, h | h⟩
        · subst h
          exact ⟨[], ⟨hu, trivial⟩, by simp⟩
        · obtain ⟨l, hc, hl⟩ := (ih y u).1 h
          exact ⟨u :: l, ⟨hu, hc⟩, by simpa using by omega⟩
      · rintro ⟨l, hc, hl⟩
        cases l with
        | nil => exact ⟨y, hc.1, Or.inl rfl⟩
        | cons u t =>
            refine ⟨u, hc.1, Or.inr ?_⟩
            refine (ih y u).2 ⟨t, hc.2, ?_⟩
            simp at hl
            omega

theorem path_shorten (m : List (String × String)) :
    ∀ (l : List String) (x y : String), chainOK m x (l ++ [y]) →
      ∃ l2, chainOK m x (l2 ++ [y]) ∧ (l2 ++ [y]).Nodup ∧ l2.length ≤ l.length := by
  intro l
  induction l with
  | nil => intro x y h; exact ⟨[], h, by simp, le_rfl⟩
  | cons u t ih =>
      intro x y h
      obtain ⟨t2, hc2, hnd, hlen⟩ := ih u y h.2
      by_cases hu : u ∈ t2 ++ [y]
      · obtain ⟨s, r, hsplit⟩ := List.append_of_mem hu
        have hcr : chainOK m u r := chainOK_suffix m s u u r (hsplit ▸ hc2)
        have hndr : (u :: r).Nodup := by
          have : (s ++ u :: r).Nodup := hsplit ▸ hnd
          exact this.sublist (List.sublist_append_right s (u :: r))
        have hrlen : r.length ≤ t2.length := by
          have := congrArg List.length hsplit
          simp at this
          omega
        rcases List.eq_nil_or_concat r with rfl | ⟨r', z, rfl⟩
        · have h2 : t2 ++ [y] = s ++ [u] := hsplit
          have h3 : [y] = [u] :=
            (List.append_inj' h2 (by simp)).2
          have h4 : y = u := by simpa using h3
          subst h4
          exact ⟨[], ⟨h.1, trivial⟩, by simp, by simp⟩
        · have h2 : t2 ++ [y] = (s ++ u :: r') ++ [z] := by
            rw [hsplit, List.concat_eq_append]
            simp
          have h3 : [y] = [z] := (List.append_inj' h2 (by simp)).2
          have h4 : y = z := by simpa using h3
          subst h4
          refine ⟨u :: r', ⟨h.1, by simpa using hcr⟩, ?_, ?_⟩
          · simpa using hndr
          · simp only [List.concat_eq_append, List.length_append] at hrlen ⊢
            simp at hrlen ⊢
            omega
      · refine ⟨u :: t2, ⟨h.1, hc2⟩, ?_, by simpa using by omega⟩
        exact List.nodup_cons.2 ⟨hu, hnd⟩

theorem nodup_path_bound (m : List (String × String)) (l : List String)
    (hnd : l.Nodup) (hsub : ∀ u ∈ l, u ∈ keys m) : l.length ≤ m.length := by
  have h1 : l.toFinset.card = l.length := List.toFinset_card_of_nodup hnd
  have h2 : l.toFinset ⊆ (keys m).toFinset := by
    intro a ha
    rw [List.mem_toFinset] at ha ⊢
    exact hsub a ha
  have h3 := Finset.card_le_card h2
  have h4 := List.toFinset_card_le (keys m)
  have h5 : (keys m).length = m.length := List.length_map m Prod.fst
  omega

theorem descWithin_shorten (m : List (String × String)) (n : Nat) (y x : String)
    (h : descWithin m n y x) : descWithin m m.length y x := by
  obtain ⟨l, hc, _⟩ := (descWithin_iff_path m n y x).1 h
  obtain ⟨l2, hc2, hnd, _⟩ := path_shorten m l x y hc
  have hb := nodup_path_bound m (l2 ++ [y]) hnd (chainOK_subset_keys m (l2 ++ [y]) x hc2)
  refine (descWithin_iff_path m m.length y x).2 ⟨l2, hc2, ?_⟩
  simpa using hb

theorem descWithin_transGen (m : List (String × String)) :
    ∀ (n : Nat) (y x : String), descWithin m n y x →
      Relation.TransGen (stepRel m) y x := by
  intro n
  induction n with
  | zero => intro y x h; exact absurd h id
  | succ n ih =>
      rintro y x ⟨u, hu, h | h⟩
      · subst h
        exact Relation.TransGen.single hu
      · exact (ih y u h).tail hu

theorem transGen_descWithin (m : List (String × String)) (y x : String)
    (h : Relation.TransGen (stepRel m) y x) : ∃ n, descWithin m n y x := by
  induction h with
  | single h1 => exact ⟨1, y, h1, Or.inl rfl⟩
  | tail _ h2 ih =>
      obtain ⟨n, hd⟩ := ih
      exact ⟨n + 1, _, h2, Or.inr hd⟩

theorem mem_gatherSubordinates (m : List (String × String)) (x y : String) :
    y ∈ gatherSubordinates m x ↔ Relation.TransGen (stepRel m) y x := by
  rw [gatherSubordinates, mem_gather_iff]
  constructor
  · exact descWithin_transGen m m.length y x
  · intro h
    obtain ⟨n, hd⟩ := transGen_descWithin m y x h
    exact descWithin_shorten m n y x hd

theorem gather_stabilizes (m : List (String × String)) (x : String) (n : Nat)
    (h : m.length ≤ n) : gather m n x = gatherSubordinates m x := by
  ext y
  rw [mem_gather_iff, gatherSubordinates, mem_gather_iff]
  constructor
  · exact descWithin_shorten m n y x
  · exact descWithin_mono m h

theorem acyclic_iff_bounded (m : List (String × String)) :
    Acyclic m ↔ ∀ x ∈ keys m, x ∉ gatherSubordinates m x := by
  constructor
  · intro h x _ hx
    exact h x ((mem_gatherSubordinates m x x).1 hx)
  · intro h x hx
    obtain ⟨c, hstep, _⟩ := Relation.TransGen.head'_iff.1 hx
    have hk : x ∈ keys m := List.mem_map.2 ⟨(x, c), hstep, rfl⟩
    exact h x hk ((mem_gatherSubordinates m x x).2 hx)

/-! ### Dictionary and term-map lemmas -/

theorem dictGet_map_self {α : Type} (l : List String) (f : String → α) (k : String) :
    dictGet (l.map fun u => (u, f u)) k = if k ∈ l then some (f k) else none := by
  induction l with
  | nil => simp [dictGet]
  | cons a l ih =>
      by_cases h : a = k
      · subst h
        simp [dictGet]
      · have h2 : (k ∈ a :: l) ↔ k ∈ l := by
          rw [List.mem_cons]
          exact or_iff_right fun h3 => h h3.symm
        rw [List.map_cons]
        rw [show dictGet ((a, f a) :: l.map fun u => (u, f u)) k
              = if a = k then some (f a) else dictGet (l.map fun u => (u, f u)) k from rfl]
        rw [if_neg h, ih, if_congr h2 rfl rfl]

theorem chainMap_get (m : List (String × String)) (u : String) :
    dictGet (buildChainMap m) u =
      if u ∈ keys m then some (gatherSubordinates m u) else none := by
  rw [buildChainMap, dictGet_map_self]
  rw [if_congr List.mem_dedup rfl rfl]

theorem chainGet_eq (m : List (String × String)) (u : String) :
    chainGet m u = if u ∈ keys m then gatherSubordinates m u else ∅ := by
  rw [chainGet, chainMap_get]
  by_cases h : u ∈ keys m <;> simp [h]

theorem mem_foldr_terms (subs : List (String × List String)) (t : String) :
    t ∈ subs.foldr (fun p acc => p.2 ++ acc) [] ↔ ∃ p ∈ subs, t ∈ p.2 := by
  induction subs with
  | nil => simp
  | cons p l ih => simp [ih]

theorem mem_subscribedTerms (subs : List (String × List String)) (t : String) :
    t ∈ subscribedTerms subs ↔ ∃ p ∈ subs, t ∈ p.2 := by
  rw [subscribedTerms, List.mem_dedup]
  exact mem_foldr_terms subs t

theorem mem_notifySet (m : List (String × String)) (subs : List (String × List String))
    (t y : String) :
    y ∈ notifySet m subs t ↔ ∃ p ∈ subs, t ∈ p.2 ∧ (y = p.1 ∨ y ∈ chainGet m p.1) := by
  induction subs with
  | nil => simp [notifySet]
  | cons p l ih =>
      have hstep : notifySet m (p :: l) t =
          if t ∈ p.2 then insert p.1 (chainGet m p.1) ∪ notifySet m l t
          else notifySet m l t := rfl
      rw [hstep]
      by_cases h : t ∈ p.2
      · rw [if_pos h]
        simp only [Finset.mem_union, Finset.mem_insert, List.mem_cons]
        constructor
        · rintro (h2 | h2)
          · rcases h2 with h2 | h2
            · exact ⟨p, Or.inl rfl, h, Or.inl h2⟩
            · exact ⟨p, Or.inl rfl, h, Or.inr h2⟩
          · obtain ⟨q, hq, hq2⟩ := ih.1 h2
            exact ⟨q, Or.inr hq, hq2⟩
        · rintro ⟨q, hq | hq, hq2, hq3⟩
          · subst hq
            rcases hq3 with hq3 | hq3
            · exact Or.inl (Or.inl hq3)
            · exact Or.inl (Or.inr hq3)
          · exact Or.inr (ih.2 ⟨q, hq, hq2, hq3⟩)
      · rw [if_neg h]
        rw [ih]
        simp only [List.mem_cons]
        constructor
        · rintro ⟨q, hq, hq2⟩
          exact ⟨q, Or.inr hq, hq2⟩
        · rintro ⟨q, hq | hq, hq2, hq3⟩
          · subst hq
            exact absurd hq2 h
          · exact ⟨q, hq, hq2, hq3⟩

theorem notifySet_empty (m : List (String × String)) (subs : List (String × List String))
    (t : String) (h : ∀ p ∈ subs, t ∉ p.2) : notifySet m subs t = ∅ := by
  ext y
  rw [mem_notifySet]
  simp only [Finset.not_mem_empty, iff_false]
  rintro ⟨p, hp, hp2, _⟩
  exact h p hp hp2

theorem termNotifGet_eq_notifySet (m : List (String × String))
    (subs : List (String × List String)) (t : String) :
    termNotifGet m subs t = notifySet m subs t := by
  rw [termNotifGet, buildTermMap, dictGet_map_self]
  by_cases h : t ∈ subscribedTerms subs
  · rw [if_pos h]
    rfl
  · rw [if_neg h, Option.getD_none]
    rw [notifySet_empty m subs t]
    intro p hp hp2
    exact h ((mem_subscribedTerms subs t).2 ⟨p, hp, hp2⟩)

theorem mem_usersToNotify (tm : List (String × Finset String)) (terms : List String)
    (y : String) :
    y ∈ usersToNotify tm terms ↔ ∃ t ∈ terms, y ∈ (dictGet tm t).getD ∅ := by
  induction terms with
  | nil => simp [usersToNotify]
  | cons t l ih =>
      rw [usersToNotify, List.foldr_cons]
      simp only [Finset.mem_union, List.mem_cons]
      rw [usersToNotify] at ih
      rw [ih]
      constructor
      · rintro (h | ⟨u, hu, hu2⟩)
        · exact ⟨t, Or.inl rfl, h⟩
        · exact ⟨u, Or.inr hu, hu2⟩
      · rintro ⟨u, hu | hu, hu2⟩
        · subst hu
          exact Or.inl hu2
        · exact Or.inr ⟨u, hu, hu2⟩

/-! ### Lure detection lemmas -/

theorem containsSub_iff : ∀ (h n : List Char), containsSub n h = true ↔ n <:+: h := by
  intro h
  induction h with
  | nil =>
      intro n
      rw [containsSub]
      simp [List.isEmpty_iff]
  | cons c t ih =>
      intro n
      rw [containsSub, Bool.or_eq_true, List.infix_cons_iff]
      rw [ List.isPrefixOf_iff_prefix, ih n]

theorem matchedTerms_eq (d : String) :
    matchedTerms d = TERMS.filter (fun t => decide (t.data <:+: (pyLower d).data)) := by
  rw [matchedTerms]
  refine List.filter_congr ?_
  intro t _
  rw [Bool.eq_iff_iff, decide_eq_true_iff]
  exact containsSub_iff (pyLower d).data t.data

theorem mem_identify_lures (ds : List String) (p : String × List String) :
    p ∈ identify_lures ds ↔
      ∃ d ∈ ds, 2 ≤ (matchedTerms d).length ∧ p = (d, matchedTerms d) := by
  rw [identify_lures, List.mem_filterMap]
  constructor
  · rintro ⟨d, hd, hopt⟩
    by_cases h : 2 ≤ (matchedTerms d).length
    · rw [if_pos h] at hopt
      exact ⟨d, hd, h, (Option.some.injEq _ _ ▸ hopt).symm⟩
    · rw [if_neg h] at hopt
      exact absurd hopt (Option.noConfusion)
  · rintro ⟨d, hd, h, rfl⟩
    exact ⟨d, hd, by rw [if_pos h]⟩

theorem identify_lures_fst (ds : List String) :
    (identify_lures ds).map Prod.fst =
      ds.filter (fun d => decide (2 ≤ (matchedTerms d).length)) := by
  induction ds with
  | nil => rfl
  | cons d l ih =>
      rw [identify_lures, List.filterMap_cons]
      by_cases h : 2 ≤ (matchedTerms d).length
      · rw [if_pos h]
        rw [List.map_cons]
        rw [identify_lures] at ih
        rw [ih, List.filter_cons, if_pos (by simpa using h)]
      · rw [if_neg h]
        rw [identify_lures] at ih
        rw [ih, List.filter_cons, if_neg (by simpa using h)]

/-! ### Notify lemmas -/

theorem dictInsert_not_mem (k : String) (v : Finset String) :
    ∀ (d : List (String × Finset String)), k ∉ d.map Prod.fst →
      dictInsert k v d = d ++ [(k, v)] := by
  intro d
  induction d with
  | nil => intro _; rfl
  | cons p l ih =>
      intro h
      simp only [List.map_cons, List.mem_cons] at h
      push_neg at h
      rw [dictInsert, if_neg (fun h2 => h.1 h2.symm)]
      rw [ih h.2]
      rfl

theorem notifyRun_foldl_nodup (tm : List (String × Finset String)) :
    ∀ (lures : List (String × List String)) (acc : List (String × Finset String)),
      (acc.map Prod.fst ++ lures.map Prod.fst).Nodup →
      lures.foldl (fun acc p => dictInsert p.1 (usersToNotify tm p.2) acc) acc =
        acc ++ lures.map (fun p => (p.1, usersToNotify tm p.2)) := by
  intro lures
  induction lures with
  | nil => intro acc _; simp
  | cons p l ih =>
      intro acc hnd
      rw [List.foldl_cons]
      have hnot : p.1 ∉ acc.map Prod.fst := by
        rw [List.nodup_append] at hnd
        intro h
        exact hnd.2.2 h (List.mem_cons_self p.1 _)
      rw [dictInsert_not_mem _ _ acc hnot]
      have hnd2 : ((acc ++ [(p.1, usersToNotify tm p.2)]).map Prod.fst ++
          l.map Prod.fst).Nodup := by
        simp only [List.map_append, List.map_cons] at hnd ⊢
        simpa using hnd
      rw [ih _ hnd2]
      simp

theorem notifyRun_nodup (tm : List (String × Finset String))
    (lures : List (String × List String)) (h : (lures.map Prod.fst).Nodup) :
    notifyRun tm lures = lures.map (fun p => (p.1, usersToNotify tm p.2)) := by
  rw [notifyRun, notifyRun_foldl_nodup tm lures [] (by simpa using h)]
  rfl

theorem gather_no_reports (m : List (String × String)) (u : String)
    (h : directReports m u = []) : ∀ n, gather m n u = ∅ := by
  intro n
  cases n with
  | zero => rfl
  | succ n => rw [gather, h]; rfl

theorem matchedTerms_length (d : String) :
    (matchedTerms d).length
      = TERMS.countP (fun t => decide (t.data <:+: (pyLower d).data)) := by
  rw [matchedTerms_eq, List.countP_eq_length_filter]

theorem stepRel_wf (m : List (String × String)) (hac : Acyclic m) :
    WellFounded (stepRel m) := by
  have key : ∀ (k : Nat) (x : String), (gatherSubordinates m x).card ≤ k →
      Acc (stepRel m) x := by
    intro k
    induction k with
    | zero =>
        intro x hx
        refine Acc.intro x fun y hy => ?_
        exfalso
        have hyx : y ∈ gatherSubordinates m x :=
          (mem_gatherSubordinates m x y).2 (Relation.TransGen.single hy)
        have := Finset.card_pos.2 ⟨y, hyx⟩
        omega
    | succ k ih =>
        intro x hx
        refine Acc.intro x fun y hy => ih y ?_
        have hss : gatherSubordinates m y ⊂ gatherSubordinates m x := by
          have hsub : gatherSubordinates m y ⊆ gatherSubordinates m x := by
            intro z hz
            exact (mem_gatherSubordinates m x z).2
              (((mem_gatherSubordinates m y z).1 hz).tail hy)
          rw [Finset.ssubset_iff_of_subset hsub]
          refine ⟨y, (mem_gatherSubordinates m x y).2 (Relation.TransGen.single hy), ?_⟩
          intro hyy
          exact hac y ((mem_gatherSubordinates m y y).1 hyy)
        have := Finset.card_lt_card hss
        omega
  exact ⟨fun x => key (gatherSubordinates m x).card x le_rfl⟩

theorem acyclicBA : Acyclic [("B", "A")] :=
  (acyclic_iff_bounded [("B", "A")]).mpr (by decide)

/-! ### Claim theorems -/

/-- C1 counterexample: with manager map `{B: A}` (so `B` reports to `A`,
`A` is a root) and subscriptions `{A: ['cisco']}` — an acyclic instance —
the user `A` subscribes to `'cisco'` and `B` is a transitive report of
`A`, yet `B` is not in `TERM_NOTIFICATIONS_MAP['cisco']`: the chain map
has no entry for the root `A`, so `.get(A, set())` yields `∅` and `A`'s
descendants are dropped. -/
theorem c1_counterexample :
    Acyclic [("B", "A")]
    ∧ ("A", ["cisco"]) ∈ ([("A", ["cisco"])] : List (String × List String))
    ∧ "cisco" ∈ ["cisco"]
    ∧ Relation.TransGen (stepRel [("B", "A")]) "B" "A"
    ∧ "B" ∉ termNotifGet [("B", "A")] [("A", ["cisco"])] "cisco" :=
  ⟨acyclicBA, List.mem_singleton.mpr rfl, List.mem_singleton.mpr rfl,
    Relation.TransGen.single (List.mem_singleton.mpr rfl), by decide⟩

/-- C1 (amended): for every acyclic manager map and subscription map,
`TERM_NOTIFICATIONS_MAP[T]` consists exactly of the subscribers of `T`
together with, for each subscriber that itself appears as a key of the
manager map (i.e. has a manager), all of that subscriber's transitive
reports; descendants of subscribers that are not keys (roots) are not
included. -/
theorem c1_term_map_members (m : List (String × String))
    (subs : List (String × List String)) (_hac : Acyclic m) (t y : String) :
    y ∈ termNotifGet m subs t ↔
      ∃ u ts, (u, ts) ∈ subs ∧ t ∈ ts ∧
        (y = u ∨ (u ∈ keys m ∧ Relation.TransGen (stepRel m) y u)) := by
  rw [termNotifGet_eq_notifySet, mem_notifySet]
  constructor
  · rintro ⟨p, hp, hp2, hy | hy⟩
    · exact ⟨p.1, p.2, hp, hp2, Or.inl hy⟩
    · rw [chainGet_eq] at hy
      by_cases hk : p.1 ∈ keys m
      · rw [if_pos hk] at hy
        exact ⟨p.1, p.2, hp, hp2, Or.inr ⟨hk, (mem_gatherSubordinates m p.1 y).1 hy⟩⟩
      · rw [if_neg hk] at hy
        exact absurd hy (Finset.not_mem_empty y)
  · rintro ⟨u, ts, hu, ht, hy | ⟨hk, hy⟩⟩
    · exact ⟨(u, ts), hu, ht, Or.inl hy⟩
    · refine ⟨(u, ts), hu, ht, Or.inr ?_⟩
      rw [chainGet_eq, if_pos hk]
      exact (mem_gatherSubordinates m u y).2 hy

theorem c1_witness :
    Acyclic [("B", "A")]
    ∧ (("A" ∈ termNotifGet [("B", "A")] [("A", ["cisco"])] "cisco") ↔
        ∃ u ts, (u, ts) ∈ ([("A", ["cisco"])] : List (String × List String))
          ∧ "cisco" ∈ ts
          ∧ ("A" = u ∨ (u ∈ keys [("B", "A")]
              ∧ Relation.TransGen (stepRel [("B", "A")]) "A" u))) :=
  ⟨acyclicBA, c1_term_map_members _ _ acyclicBA "cisco" "A"⟩

/-- C2 counterexample: in the acyclic manager map `{B: A}`, the user `A`
appears as a value (a manager) but the chain map built at construction
has no entry for `A`: `_build_user_reports_chain_map` only seeds its
recursion from the keys of `USER_TO_MANAGER_DICT`. -/
theorem c2_counterexample :
    Acyclic [("B", "A")]
    ∧ "A" ∈ ([("B", "A")] : List (String × String)).map Prod.snd
    ∧ dictGet (buildChainMap [("B", "A")]) "A" = none :=
  ⟨acyclicBA, by simp, by decide⟩

/-- C2 (amended): for every acyclic manager map, the chain map built at
construction has an entry exactly for every user appearing as a key of
the manager map (users appearing only as values are absent); each
present entry is the set of all users for whom that user is a direct or
transitive manager, and a key with no direct reports maps to the empty
set rather than being absent. -/
theorem c2_chain_map (m : List (String × String)) (_hac : Acyclic m) :
    (∀ u : String, (∃ s, dictGet (buildChainMap m) u = some s) ↔ u ∈ keys m)
    ∧ (∀ u s, dictGet (buildChainMap m) u = some s →
        ∀ y, y ∈ s ↔ Relation.TransGen (stepRel m) y u)
    ∧ ∀ u ∈ keys m, directReports m u = [] →
        dictGet (buildChainMap m) u = some ∅ := by
  refine ⟨?_, ?_, ?_⟩
  · intro u
    rw [chainMap_get]
    by_cases h : u ∈ keys m
    · simp [h]
    · simp [h]
  · intro u s hs y
    rw [chainMap_get] at hs
    by_cases h : u ∈ keys m
    · rw [if_pos h] at hs
      injection hs with h2
      rw [← h2]
      exact mem_gatherSubordinates m u y
    · rw [if_neg h] at hs
      exact absurd hs (by simp)
  · intro u hk hdr
    rw [chainMap_get, if_pos hk, gatherSubordinates, gather_no_reports m u hdr]

theorem c2_witness :
    Acyclic [("B", "A")]
    ∧ ((∀ u : String,
          (∃ s, dictGet (buildChainMap [("B", "A")]) u = some s)
            ↔ u ∈ keys [("B", "A")])
      ∧ (∀ u s, dictGet (buildChainMap [("B", "A")]) u = some s →
          ∀ y, y ∈ s ↔ Relation.TransGen (stepRel [("B", "A")]) y u)
      ∧ ∀ u ∈ keys [("B", "A")], directReports [("B", "A")] u = [] →
          dictGet (buildChainMap [("B", "A")]) u = some ∅) :=
  ⟨acyclicBA, c2_chain_map _ acyclicBA⟩

/-- C3 counterexample: with `B` reporting to `A`, `C` reporting to `B`
and subscriptions `{A: ['cisco'], C: ['mail']}`, construction does not
produce `chain[A] = {B, C}` (the entry for the root `A` is absent
altogether) and `TERM_NOTIFICATIONS_MAP['cisco']` is `{A}`, not
`{A, B, C}`. -/
theorem c3_counterexample :
    dictGet (buildChainMap [("B", "A"), ("C", "B")]) "A" = none
    ∧ termNotifGet [("B", "A"), ("C", "B")] [("A", ["cisco"]), ("C", ["mail"])] "cisco"
        ≠ {"A", "B", "C"} :=
  ⟨by decide, by decide⟩

/-- C3 (amended): on the concrete input where `B` reports to `A`, `C`
reports to `B` and the subscriptions are `{A: ['cisco'], C: ['mail']}`,
construction produces `chain[B] = {C}`, `chain[C] = {}`, no entry for
`A`, `TERM_NOTIFICATIONS_MAP['cisco'] = {A}` and
`TERM_NOTIFICATIONS_MAP['mail'] = {C}`. -/
theorem c3_concrete :
    dictGet (buildChainMap [("B", "A"), ("C", "B")]) "B" = some {"C"}
    ∧ dictGet (buildChainMap [("B", "A"), ("C", "B")]) "C" = some ∅
    ∧ dictGet (buildChainMap [("B", "A"), ("C", "B")]) "A" = none
    ∧ termNotifGet [("B", "A"), ("C", "B")] [("A", ["cisco"]), ("C", ["mail"])] "cisco"
        = {"A"}
    ∧ termNotifGet [("B", "A"), ("C", "B")] [("A", ["cisco"]), ("C", ["mail"])] "mail"
        = {"C"} :=
  ⟨by decide, by decide, by decide, by decide, by decide⟩

/-- C4: a domain is reported by `identify_lures` iff at least two of the
seven vocabulary terms are substrings of its lower-cased form; each
reported matched-term list is a duplicate-free sublist of `TERMS`
(vocabulary order, each matching term exactly once) containing exactly
the matching terms; the reported domains preserve the input order; and
every reported entry has at least two matched terms (0- or 1-match
domains are omitted entirely). -/
theorem c4_identify_lures (ds : List String) :
    (∀ d ∈ ds, (∃ ts, (d, ts) ∈ identify_lures ds) ↔
        2 ≤ TERMS.countP (fun t => decide (t.data <:+: (pyLower d).data)))
    ∧ (∀ p ∈ identify_lures ds, p.2.Sublist TERMS ∧ p.2.Nodup ∧
        ∀ t, t ∈ p.2 ↔ t ∈ TERMS ∧ t.data <:+: (pyLower p.1).data)
    ∧ ((identify_lures ds).map Prod.fst).Sublist ds
    ∧ ∀ p ∈ identify_lures ds, 2 ≤ p.2.length := by
  refine ⟨?_, ?_, ?_, ?_⟩
  · intro d hd
    rw [← matchedTerms_length]
    constructor
    · rintro ⟨ts, hts⟩
      obtain ⟨e, _, hlen, heq⟩ := (mem_identify_lures ds (d, ts)).1 hts
      cases heq
      exact hlen
    · intro hlen
      exact ⟨matchedTerms d, (mem_identify_lures ds _).2 ⟨d, hd, hlen, rfl⟩⟩
  · intro p hp
    obtain ⟨e, _, _, rfl⟩ := (mem_identify_lures ds p).1 hp
    refine ⟨?_, ?_, ?_⟩
    · show (matchedTerms e).Sublist TERMS
      rw [matchedTerms]
      exact List.filter_sublist TERMS
    · show (matchedTerms e).Nodup
      rw [matchedTerms]
      exact (by decide : TERMS.Nodup).filter _
    · intro t
      show t ∈ matchedTerms e ↔ t ∈ TERMS ∧ t.data <:+: (pyLower e).data
      rw [matchedTerms, List.mem_filter]
      exact and_congr Iff.rfl (containsSub_iff (pyLower e).data t.data)
  · rw [identify_lures_fst]
    exact List.filter_sublist ds
  · intro p hp
    obtain ⟨e, _, hlen, rfl⟩ := (mem_identify_lures ds p).1 hp
    exact hlen

theorem c4_witness :
    ("CiscoMail.com" ∈ ["CiscoMail.com"])
    ∧ ((∃ ts, ("CiscoMail.com", ts) ∈ identify_lures ["CiscoMail.com"]) ↔
        2 ≤ TERMS.countP
          (fun t => decide (t.data <:+: (pyLower ("CiscoMail.com")).data))) :=
  ⟨List.mem_singleton.mpr rfl,
    (c4_identify_lures ["CiscoMail.com"]).1 ("CiscoMail.com") (List.mem_singleton.mpr rfl)⟩

/-- C5: for every acyclic manager map, the recursive call relation of
`gather_subordinates` (each call on `x` recurses exactly on the direct
reports of `x`) is well-founded, and the fuel-indexed embedding of the
recursion is stable at fuel `m.length`: construction terminates and the
computation is total under the acyclicity precondition. -/
theorem c5_termination (m : List (String × String)) (hac : Acyclic m) :
    WellFounded (stepRel m)
    ∧ ∀ (x : String) (n : Nat), m.length ≤ n →
        gather m n x = gatherSubordinates m x :=
  ⟨stepRel_wf m hac, fun x n h => gather_stabilizes m x n h⟩

theorem c5_witness :
    Acyclic [("B", "A")]
    ∧ (WellFounded (stepRel [("B", "A")])
      ∧ ∀ (x : String) (n : Nat),
          ([("B", "A")] : List (String × String)).length ≤ n →
          gather [("B", "A")] n x = gatherSubordinates [("B", "A")] x) :=
  ⟨acyclicBA, c5_termination _ acyclicBA⟩

/-- C6 counterexample: `notify` builds a Python dict keyed by domain, so
for the lure list `[('d', ['cisco']), ('d', ['mail'])]` (two input
entries with the same domain) it returns a single entry, and that
entry's users come from the last occurrence's terms only (`{C}`), not
from the union of all of the domain's matched terms (`{A, C}`). -/
theorem c6_counterexample :
    (notifyRun (buildTermMap [("B", "A"), ("C", "B")] [("A", ["cisco"]), ("C", ["mail"])])
        [("d", ["cisco"]), ("d", ["mail"])]).length = 1
    ∧ dictGet (notifyRun
        (buildTermMap [("B", "A"), ("C", "B")] [("A", ["cisco"]), ("C", ["mail"])])
        [("d", ["cisco"]), ("d", ["mail"])]) "d" = some {"C"} :=
  ⟨by decide, by decide⟩

/-- C6 (amended): for every lure list whose domains are pairwise
distinct, `notify` returns exactly one entry per input lure, in order —
including entries whose user set is empty; within each entry the users
are the duplicate-free union, over the lure's matched terms, of that
term's notify-set, where a term absent from the term-notification map
contributes the empty set rather than raising an error. (With duplicate
domains the dict collapses them, last occurrence winning.) -/
theorem c6_notify (m : List (String × String)) (subs : List (String × List String))
    (lures : List (String × List String)) (h : (lures.map Prod.fst).Nodup) :
    notifyRun (buildTermMap m subs) lures
        = lures.map (fun p => (p.1, usersToNotify (buildTermMap m subs) p.2))
    ∧ (∀ p ∈ lures, ∀ y : String,
        y ∈ usersToNotify (buildTermMap m subs) p.2 ↔
          ∃ t ∈ p.2, y ∈ termNotifGet m subs t)
    ∧ ∀ t : String, (∀ p ∈ subs, t ∉ p.2) → termNotifGet m subs t = ∅ := by
  refine ⟨notifyRun_nodup _ _ h, ?_, ?_⟩
  · intro p _ y
    exact mem_usersToNotify (buildTermMap m subs) p.2 y
  · intro t ht
    rw [termNotifGet_eq_notifySet]
    exact notifySet_empty m subs t ht

theorem c6_witness :
    (([("d", ["zzz"])].map Prod.fst).Nodup)
    ∧ (notifyRun (buildTermMap ([] : List (String × String)) []) [("d", ["zzz"])]
          = [("d", ["zzz"])].map
              (fun p => (p.1, usersToNotify (buildTermMap [] []) p.2))
      ∧ (∀ p ∈ ([("d", ["zzz"])] : List (String × List String)), ∀ y : String,
          y ∈ usersToNotify (buildTermMap [] []) p.2 ↔
            ∃ t ∈ p.2, y ∈ termNotifGet [] [] t)
      ∧ ∀ t : String, (∀ p ∈ ([] : List (String × List String)), t ∉ p.2) →
          termNotifGet [] [] t = ∅) :=
  ⟨by decide, c6_notify [] [] [("d", ["zzz"])] (by decide)⟩

/-- C7: no query mutates the precomputed state: after any sequence of
`identify_lures` / `notify` calls the fields `SUBSCRIPTIONS`,
`USER_TO_MANAGER_DICT`, `USER_REPORTS_CHAIN_MAP` and
`TERM_NOTIFICATIONS_MAP` are unchanged; the only field written is
`TARGET_DOMAINS`, which `identify_lures` sets to its argument, and
`notify` leaves the state entirely untouched. -/
theorem c7_frame (s : LureNotifier) (qs : List Query) (ds : List String)
    (ls : List (String × List String)) :
    ((runQueries s qs).SUBSCRIPTIONS = s.SUBSCRIPTIONS
      ∧ (runQueries s qs).USER_TO_MANAGER_DICT = s.USER_TO_MANAGER_DICT
      ∧ (runQueries s qs).USER_REPORTS_CHAIN_MAP = s.USER_REPORTS_CHAIN_MAP
      ∧ (runQueries s qs).TERM_NOTIFICATIONS_MAP = s.TERM_NOTIFICATIONS_MAP)
    ∧ (s.identifyLuresM ds).1.TARGET_DOMAINS = ds
    ∧ (s.notifyM ls).1 = s := by
  refine ⟨?_, rfl, rfl⟩
  induction qs generalizing s with
  | nil => exact ⟨rfl, rfl, rfl, rfl⟩
  | cons q l ih =>
      have hq : (runQuery s q).SUBSCRIPTIONS = s.SUBSCRIPTIONS
          ∧ (runQuery s q).USER_TO_MANAGER_DICT = s.USER_TO_MANAGER_DICT
          ∧ (runQuery s q).USER_REPORTS_CHAIN_MAP = s.USER_REPORTS_CHAIN_MAP
          ∧ (runQuery s q).TERM_NOTIFICATIONS_MAP = s.TERM_NOTIFICATIONS_MAP := by
        cases q with
        | identifyQ ds2 => exact ⟨rfl, rfl, rfl, rfl⟩
        | notifyQ ls2 => exact ⟨rfl, rfl, rfl, rfl⟩
      have h2 := ih (runQuery s q)
      refine ⟨h2.1.trans hq.1, (h2.2.1).trans hq.2.1,
        (h2.2.2.1).trans hq.2.2.1, (h2.2.2.2).trans hq.2.2.2⟩

/-- C8: adding a new subscription record making user `U` an additional
subscriber of term `T` can only grow the notify-set for `T`: the set
computed from the extended subscriptions contains the one computed from
the original subscriptions, the manager map held fixed. -/
theorem c8_monotone (m : List (String × String)) (subs : List (String × List String))
    (U T : String) :
    termNotifGet m subs T ⊆ termNotifGet m (subs ++ [(U, [T])]) T := by
  intro y hy
  rw [termNotifGet_eq_notifySet, mem_notifySet] at hy ⊢
  obtain ⟨p, hp, h2, h3⟩ := hy
  exact ⟨p, List.mem_append_left _ hp, h2, h3⟩

theorem c8_witness :
    termNotifGet [("B", "A")] [("A", ["cisco"])] "cisco"
      ⊆ termNotifGet [("B", "A")] ([("A", ["cisco"])] ++ [("C", ["cisco"])]) "cisco" :=
  c8_monotone [("B", "A")] [("A", ["cisco"])] ("C") ("cisco")

/-- C9: running `notify(identify_lures(domains))` twice in succession on
the same constructed notifier state yields identical results both times:
the `TARGET_DOMAINS` bookkeeping write performed by `identify_lures`
influences no result. -/
theorem c9_idempotent (s : LureNotifier) (ds : List String) :
    (((s.identifyLuresM ds).1.notifyM (s.identifyLuresM ds).2).1.identifyLuresM ds).2
        = (s.identifyLuresM ds).2
    ∧ ((((s.identifyLuresM ds).1.notifyM (s.identifyLuresM ds).2).1.identifyLuresM
            ds).1.notifyM
          ((((s.identifyLuresM ds).1.notifyM (s.identifyLuresM ds).2).1.identifyLuresM
            ds).2)).2
        = ((s.identifyLuresM ds).1.notifyM (s.identifyLuresM ds).2).2 :=
  ⟨rfl, rfl⟩

/-- C10: each lure record carries the original input domain string
verbatim — matching is done on the lower-cased copy, but the first
component of every returned tuple is an input domain exactly as given,
paired with its matched terms. -/
theorem c10_verbatim (ds : List String) (d : String) (hd : d ∈ ds)
    (hm : 2 ≤ (matchedTerms d).length) :
    (d, matchedTerms d) ∈ identify_lures ds
    ∧ ∀ p ∈ identify_lures ds, ∃ e ∈ ds, p = (e, matchedTerms e) := by
  constructor
  · exact (mem_identify_lures ds _).2 ⟨d, hd, hm, rfl⟩
  · intro p hp
    obtain ⟨e, he, _, rfl⟩ := (mem_identify_lures ds p).1 hp
    exact ⟨e, he, rfl⟩

theorem c10_witness :
    ("PayPal-Login.com" ∈ ["PayPal-Login.com"])
    ∧ 2 ≤ (matchedTerms ("PayPal-Login.com")).length
    ∧ (("PayPal-Login.com", matchedTerms ("PayPal-Login.com"))
          ∈ identify_lures ["PayPal-Login.com"]
        ∧ ∀ p ∈ identify_lures ["PayPal-Login.com"],
            ∃ e ∈ ["PayPal-Login.com"], p = (e, matchedTerms e)) :=
  ⟨List.mem_singleton.mpr rfl, by decide,
    c10_verbatim ["PayPal-Login.com"] ("PayPal-Login.com")
      (List.mem_singleton.mpr rfl) (by decide)⟩

end LureChallenge
